import Mathlib

/-!
Verification of the FOURIER_VIEW DFT core: a shallow embedding of the
complex/twiddle utilities (client/src/utils/dft.ts and the variant kept in
part_000), and of the live-sampling / freeze controller implemented by the
updateDFT tick in client/src/hooks/useDFTCalculation.tsx.  JavaScript numbers
are modelled as real numbers; loops accumulating two running sums are
modelled as finite sums over the loop range; React state is modelled by
explicit state passing, one tick being one execution of updateDFT.
-/

namespace FourierView

/-- The Complex interface of dft.ts: an ordered pair of numbers. -/
structure Complex where
  real : ℝ
  imag : ℝ

/-- Embedding of Math.atan2: the argument of the point (x, y), in (-pi, pi],
with atan2 0 0 = 0. -/
noncomputable def atan2 (y x : ℝ) : ℝ :=
  Complex.arg ⟨x, y⟩

namespace Dft

/-- getTwiddleFactor from dft.ts: angle = -2 pi k n / N,
returns (cos angle, sin angle). -/
noncomputable def getTwiddleFactor (N k n : ℝ) : FourierView.Complex :=
  ⟨Real.cos (-2 * Real.pi * k * n / N), Real.sin (-2 * Real.pi * k * n / N)⟩

/-- calculateDFT from dft.ts: N = signal.length; accumulates
signal[n] * twiddle.real and signal[n] * twiddle.imag for n below N. -/
noncomputable def calculateDFT (signal : List ℝ) (k : ℤ) : FourierView.Complex :=
  ⟨∑ n ∈ Finset.range signal.length,
      signal.getD n 0 * (getTwiddleFactor signal.length k n).real,
   ∑ n ∈ Finset.range signal.length,
      signal.getD n 0 * (getTwiddleFactor signal.length k n).imag⟩

/-- The JavaScript call sites that pass a third argument to the two-parameter
calculateDFT of dft.ts: the extra argument is ignored. -/
noncomputable def calculateDFTCall (signal : List ℝ) (k : ℤ) (_maxN : Option ℤ) :
    FourierView.Complex :=
  calculateDFT signal k

/-- calculateFullDFT from dft.ts: one calculateDFT per k in [0, N). -/
noncomputable def calculateFullDFT (signal : List ℝ) : List FourierView.Complex :=
  (List.range signal.length).map fun (k : ℕ) => calculateDFT signal (k : ℤ)

/-- getMagnitude from dft.ts: sqrt (real * real + imag * imag). -/
noncomputable def getMagnitude (c : FourierView.Complex) : ℝ :=
  Real.sqrt (c.real * c.real + c.imag * c.imag)

/-- getPhase from dft.ts: atan2 (imag, real) converted to degrees. -/
noncomputable def getPhase (c : FourierView.Complex) : ℝ :=
  atan2 c.imag c.real * (180 / Real.pi)

end Dft

/-- JavaScript falsy-or on an optional integer argument, as in
maxN || signal.length: a missing or zero argument falls back to the
default. -/
def falsyOr (x : Option ℤ) (d : ℤ) : ℤ :=
  match x with
  | some m => if m = 0 then d else m
  | none => d

namespace Part000

/-- calculateDFT from the dft module kept in part_000: N = maxN || signal.length
(so a supplied 0 falls back to signal.length, by JavaScript falsiness), a
precomputed base angle -2 pi k / N, and a loop bound Math.min (N, signal.length)
(no iterations when N is negative). -/
noncomputable def calculateDFT (signal : List ℝ) (k : ℤ) (maxN : Option ℤ) :
    FourierView.Complex :=
  let N : ℤ := falsyOr maxN (signal.length : ℤ)
  let baseAngle : ℝ := -2 * Real.pi * (k : ℝ) / (N : ℝ)
  let count : ℕ := min N.toNat signal.length
  ⟨∑ n ∈ Finset.range count, signal.getD n 0 * Real.cos (baseAngle * (n : ℝ)),
   ∑ n ∈ Finset.range count, signal.getD n 0 * Real.sin (baseAngle * (n : ℝ))⟩

end Part000

namespace Hook

/-- The DFTResult record of useDFTCalculation.tsx. -/
structure DFTResult where
  real : ℝ
  imag : ℝ
  magnitude : ℝ
  phase : ℝ

/-- The TwiddleFactor record of useDFTCalculation.tsx: the twiddle components,
the absolute amplitude, and the weighted term of the summation. -/
structure TwiddleFactor where
  real : ℝ
  imag : ℝ
  amplitude : ℝ
  result : FourierView.Complex

/-- The frozenData record: the snapshot captured while playing. -/
structure FrozenData where
  timeData : List ℝ
  dftResults : List DFTResult
  twiddleFactors : List TwiddleFactor

/-- The inputs one execution of updateDFT reads from the analyser node and
from the hook parameters. -/
structure TickInput where
  timeArray : List ℝ
  freqArray : List ℕ
  isPlaying : Bool
  sampleWindow : ℕ
  selectedFrequencyBin : ℤ

/-- The React state cells of useDFTCalculation, passed explicitly. -/
structure ControllerState where
  timeData : Option (List ℝ)
  frequencyData : Option (List ℕ)
  dftResults : List DFTResult
  twiddleFactors : List TwiddleFactor
  currentSample : ℕ
  frozenData : Option FrozenData

/-- The useState initial values: null buffers, empty result lists, sample 0,
no frozen data. -/
def initialState : ControllerState :=
  ⟨none, none, [], [], 0, none⟩

/-- The windowData loop: windowData[i] = timeArray[i] || 0 for i below
sampleWindow (out-of-range reads give 0). -/
def windowData (timeArray : List ℝ) (sampleWindow : ℕ) : List ℝ :=
  (List.range sampleWindow).map fun i => timeArray.getD i 0

/-- The DFT results loop of updateDFT: for k below maxBins, calculateDFT of
the window (called with a third argument the dft.ts function ignores), with
magnitude and phase derived inline. -/
noncomputable def dftResultsOf (w : List ℝ) (maxBins : ℕ) : List DFTResult :=
  (List.range maxBins).map fun (k : ℕ) =>
    let d := Dft.calculateDFTCall w (k : ℤ) (some (maxBins : ℤ))
    ⟨d.real, d.imag, Real.sqrt (d.real * d.real + d.imag * d.imag),
     atan2 d.imag d.real * (180 / Real.pi)⟩

/-- The twiddle factors loop of updateDFT: for n below maxFactors, amplitude
= windowData[n] || 0, twiddle = getTwiddleFactor (sampleWindow, k, n), result
= amplitude times twiddle, and the stored amplitude field is Math.abs of the
sample. -/
noncomputable def twiddleFactorsOf (w : List ℝ) (sampleWindow : ℕ) (k : ℤ)
    (maxFactors : ℕ) : List TwiddleFactor :=
  (List.range maxFactors).map fun (n : ℕ) =>
    let amplitude := w.getD n 0
    let twiddle := Dft.getTwiddleFactor (sampleWindow : ℝ) (k : ℝ) (n : ℝ)
    ⟨twiddle.real, twiddle.imag, |amplitude|,
     ⟨amplitude * twiddle.real, amplitude * twiddle.imag⟩⟩

/-- One execution of updateDFT: capture the buffers, build the window, compute
min (sampleWindow, 1024) DFT bins and twiddle entries, advance currentSample,
and overwrite frozenData only when isPlaying. -/
noncomputable def updateDFT (s : ControllerState) (i : TickInput) : ControllerState :=
  let w := windowData i.timeArray i.sampleWindow
  let maxBins := min i.sampleWindow 1024
  let results := dftResultsOf w maxBins
  let maxFactors := min i.sampleWindow 1024
  let factors := twiddleFactorsOf w i.sampleWindow i.selectedFrequencyBin maxFactors
  { timeData := some i.timeArray
    frequencyData := some i.freqArray
    dftResults := results
    twiddleFactors := factors
    currentSample := (s.currentSample + 1) % i.sampleWindow
    frozenData := if i.isPlaying then some ⟨w, results, factors⟩ else s.frozenData }

/-- The snapshot a playing tick writes into frozenData. -/
noncomputable def capturedSnapshot (i : TickInput) : FrozenData :=
  let w := windowData i.timeArray i.sampleWindow
  ⟨w, dftResultsOf w (min i.sampleWindow 1024),
   twiddleFactorsOf w i.sampleWindow i.selectedFrequencyBin (min i.sampleWindow 1024)⟩

/-- The requestAnimationFrame gate at the end of updateDFT: a next frame is
scheduled only when isPlaying. -/
def schedulesNext (i : TickInput) : Bool :=
  i.isPlaying

/-- A sequence of updateDFT executions. -/
noncomputable def runTicks (s : ControllerState) (ticks : List TickInput) :
    ControllerState :=
  ticks.foldl updateDFT s

/-- What the hook returns to consumers. -/
structure ServedData where
  timeData : Option (List ℝ)
  dftResults : List DFTResult
  twiddleFactors : List TwiddleFactor

/-- The currentData selection of the hook: frozen data when not playing and a
frozen snapshot exists, live data otherwise. -/
noncomputable def currentData (s : ControllerState) (isPlaying : Bool) : ServedData :=
  match isPlaying, s.frozenData with
  | false, some f => ⟨some f.timeData, f.dftResults, f.twiddleFactors⟩
  | _, _ => ⟨s.timeData, s.dftResults, s.twiddleFactors⟩

end Hook

/-- The per-bin direct summation exactly as the spec words dftBin: N is
N_effective when supplied and the window length otherwise, the sum runs over
n below min (N_effective, length), and each term uses the twiddle angle
-2 pi k n / N. -/
noncomputable def specDftBin (samples : List ℝ) (k : ℤ) (nEff : Option ℤ) :
    FourierView.Complex :=
  let N : ℤ := nEff.getD (samples.length : ℤ)
  let count : ℕ := min N.toNat samples.length
  ⟨∑ n ∈ Finset.range count,
      samples.getD n 0 * Real.cos (-2 * Real.pi * (k : ℝ) * (n : ℝ) / (N : ℝ)),
   ∑ n ∈ Finset.range count,
      samples.getD n 0 * Real.sin (-2 * Real.pi * (k : ℝ) * (n : ℝ) / (N : ℝ))⟩

/-- The InvalidWindow condition named by the spec error taxonomy. -/
inductive EngineError where
  | invalidWindow

/-- Follows the spec wording (sections 4.2 and 7) for comparison with the
code: a per-bin engine that fails with InvalidWindow when the window is empty
(N not positive) and otherwise returns the dft.ts value.  No such check
exists anywhere under src. -/
noncomputable def specDftBinChecked (samples : List ℝ) (k : ℤ) :
    Except EngineError FourierView.Complex :=
  if samples.length = 0 then .error .invalidWindow
  else .ok (Dft.calculateDFT samples k)

/-- The precomputed base angle of part_000 distributes over the sample index:
(-2 pi k / N) * n = -2 pi k n / N. -/
lemma baseAngle_mul (k N : ℤ) (n : ℕ) :
    -2 * Real.pi * (k : ℝ) / (N : ℝ) * (n : ℝ) =
      -2 * Real.pi * (k : ℝ) * (n : ℝ) / (N : ℝ) := by
  ring

/-- Reading index n of a mapped range list below its length gives the mapped
value. -/
lemma getD_map_range {α : Type} (m n : ℕ) (f : ℕ → α) (d : α) (h : n < m) :
    ((List.range m).map f).getD n d = f n := by
  rw [List.getD_eq_getElem?_getD, List.getElem?_map, List.getElem?_range h]
  rfl

/-- Whenever the falsy-or resolves N to the window length, the part_000 DFT
agrees with the dft.ts DFT. -/
lemma part000_at_window_length (signal : List ℝ) (k : ℤ) (maxN : Option ℤ)
    (h : falsyOr maxN (signal.length : ℤ) = (signal.length : ℤ)) :
    Part000.calculateDFT signal k maxN = Dft.calculateDFT signal k := by
  simp only [Part000.calculateDFT, Dft.calculateDFT, Dft.getTwiddleFactor, h,
    Int.toNat_natCast, min_self]
  refine congrArg₂ Complex.mk (Finset.sum_congr rfl fun n _ => ?_)
    (Finset.sum_congr rfl fun n _ => ?_) <;>
  · have harg : -2 * Real.pi * (k : ℝ) / (((signal.length : ℤ) : ℤ) : ℝ) * (n : ℝ) =
        -2 * Real.pi * (k : ℝ) * (n : ℝ) / ((signal.length : ℕ) : ℝ) := by
      push_cast
      ring
    rw [harg]

/-- A run of ticks none of which is playing leaves frozenData untouched. -/
lemma runTicks_frozen_stable (ticks : List Hook.TickInput) :
    ∀ s : Hook.ControllerState, (∀ x ∈ ticks, x.isPlaying = false) →
      (Hook.runTicks s ticks).frozenData = s.frozenData := by
  induction ticks with
  | nil => intro s _; rfl
  | cons t ts ih =>
    intro s h
    have ht : t.isPlaying = false := h t (List.mem_cons_self t ts)
    have hstep : (Hook.runTicks s (t :: ts)).frozenData =
        (Hook.runTicks (Hook.updateDFT s t) ts).frozenData := by
      rw [Hook.runTicks, List.foldl_cons]; rfl
    rw [hstep, ih _ fun x hx => h x (List.mem_cons_of_mem t hx)]
    simp [Hook.updateDFT, ht]

/-- A playing tick freezes exactly the snapshot it computed. -/
lemma updateDFT_frozen_of_playing (s : Hook.ControllerState) (i : Hook.TickInput)
    (h : i.isPlaying = true) :
    (Hook.updateDFT s i).frozenData = some (Hook.capturedSnapshot i) := by
  simp [Hook.updateDFT, Hook.capturedSnapshot, h]

/-- Conjugating a unit-circle exponential negates its angle. -/
lemma conj_exp_real_mul_I (t : ℝ) :
    (starRingEnd ℂ) (Complex.exp ((t : ℂ) * Complex.I)) =
      Complex.exp (((-t : ℝ) : ℂ) * Complex.I) := by
  rw [← Complex.exp_conj]
  congr 1
  simp [Complex.conj_I]

/-- The product of the bin-k twiddle at n with the conjugate twiddle at m is
the k-th power of the twiddle at angle difference n - m. -/
lemma exp_pow_form (N k n m : ℕ) :
    Complex.exp (((-2 * Real.pi * (k : ℝ) * (n : ℝ) / (N : ℝ) : ℝ) : ℂ) * Complex.I) *
      (starRingEnd ℂ)
        (Complex.exp (((-2 * Real.pi * (k : ℝ) * (m : ℝ) / (N : ℝ) : ℝ) : ℂ) * Complex.I)) =
      Complex.exp (((-2 * Real.pi * ((n : ℝ) - (m : ℝ)) / (N : ℝ) : ℝ) : ℂ) * Complex.I) ^ k := by
  rw [conj_exp_real_mul_I, ← Complex.exp_add, ← Complex.exp_nat_mul]
  congr 1
  push_cast
  ring

/-- The N-th power of the difference twiddle is a full turn. -/
lemma zeta_pow_card (N : ℕ) (hN : 0 < N) (n m : ℕ) :
    Complex.exp (((-2 * Real.pi * ((n : ℝ) - (m : ℝ)) / (N : ℝ) : ℝ) : ℂ) * Complex.I) ^ N =
      Complex.exp ((((m : ℤ) - (n : ℤ)) : ℂ) * (2 * Real.pi * Complex.I)) := by
  rw [← Complex.exp_nat_mul]
  congr 1
  have hNeC : ((N : ℕ) : ℂ) ≠ 0 := Nat.cast_ne_zero.mpr hN.ne'
  push_cast
  field_simp
  ring

/-- For distinct indices below N the difference twiddle is not 1. -/
lemma zeta_ne_one (N : ℕ) (hN : 0 < N) (n m : ℕ) (hn : n < N) (hm : m < N) (hne : n ≠ m) :
    Complex.exp (((-2 * Real.pi * ((n : ℝ) - (m : ℝ)) / (N : ℝ) : ℝ) : ℂ) * Complex.I) ≠ 1 := by
  intro hone
  rw [Complex.exp_eq_one_iff] at hone
  obtain ⟨t, ht⟩ := hone
  have hI : ((-2 * Real.pi * ((n : ℝ) - (m : ℝ)) / (N : ℝ) : ℝ) : ℂ) =
      ((t : ℝ) * (2 * Real.pi) : ℝ) := by
    have h2 : ((t : ℂ) * (2 * Real.pi * Complex.I)) =
        (((t : ℝ) * (2 * Real.pi) : ℝ) : ℂ) * Complex.I := by
      push_cast
      ring
    rw [h2] at ht
    exact mul_right_cancel₀ Complex.I_ne_zero ht
  have hreal : -2 * Real.pi * ((n : ℝ) - (m : ℝ)) / (N : ℝ) = (t : ℝ) * (2 * Real.pi) := by
    exact_mod_cast hI
  have hNe : ((N : ℕ) : ℝ) ≠ 0 := Nat.cast_ne_zero.mpr hN.ne'
  rw [div_eq_iff hNe] at hreal
  have hcancel : (2 * Real.pi) * ((m : ℝ) - (n : ℝ)) =
      (2 * Real.pi) * ((t : ℝ) * (N : ℝ)) := by
    linear_combination hreal
  have h2pi : (2 * Real.pi) ≠ 0 := by positivity
  have hmn : ((m : ℝ) - (n : ℝ)) = (t : ℝ) * (N : ℝ) := mul_left_cancel₀ h2pi hcancel
  have hmnZ : ((m : ℤ) - (n : ℤ)) = t * (N : ℤ) := by
    exact_mod_cast hmn
  have habs : ((m : ℤ) - (n : ℤ)).natAbs < N := by
    omega
  rcases eq_or_ne t 0 with ht0 | ht0
  · rw [ht0, zero_mul] at hmnZ
    omega
  · have h1 : 1 ≤ t.natAbs := Int.natAbs_pos.mpr ht0
    have heq : ((m : ℤ) - (n : ℤ)).natAbs = t.natAbs * N := by
      rw [hmnZ, Int.natAbs_mul, Int.natAbs_ofNat]
    rw [heq] at habs
    have : N ≤ t.natAbs * N := Nat.le_mul_of_pos_left N (by omega)
    omega

/-- Orthogonality of the DFT twiddles: the geometric sum of the difference
twiddle over the N bins is N on the diagonal and 0 off it. -/
lemma exp_orthogonality (N : ℕ) (hN : 0 < N) (n m : ℕ) (hn : n < N) (hm : m < N) :
    (∑ k ∈ Finset.range N,
        Complex.exp (((-2 * Real.pi * ((n : ℝ) - (m : ℝ)) / (N : ℝ) : ℝ) : ℂ) * Complex.I) ^ k) =
      if n = m then (N : ℂ) else 0 := by
  by_cases hcase : n = m
  · subst hcase
    rw [if_pos rfl]
    have hzero : ((n : ℝ) - (n : ℝ)) = 0 := by ring
    simp [hzero]
  · rw [if_neg hcase]
    rw [geom_sum_eq (zeta_ne_one N hN n m hn hm hcase)]
    rw [zeta_pow_card N hN n m]
    have hone : Complex.exp ((((m : ℤ) - (n : ℤ)) : ℂ) * (2 * Real.pi * Complex.I)) = 1 := by
      have h2 : ((((m : ℤ) - (n : ℤ)) : ℂ) * (2 * Real.pi * Complex.I)) =
          (((m : ℤ) - (n : ℤ)) : ℂ) * (2 * (Real.pi : ℂ) * Complex.I) := by
        push_cast
        ring
      rw [h2]
      exact_mod_cast Complex.exp_int_mul_two_pi_mul_I ((m : ℤ) - (n : ℤ))
    rw [hone]
    simp

/-- Energy identity for any family of exponentials satisfying the
product-to-power and orthogonality laws: the summed squared norms of the N
transform values equal N times the summed squared inputs. -/
lemma sum_normSq_abstract (N : ℕ) (a : ℕ → ℝ) (E : ℕ → ℕ → ℂ) (Z : ℕ → ℕ → ℂ)
    (hmul : ∀ k n m, E k n * (starRingEnd ℂ) (E k m) = Z n m ^ k)
    (horth : ∀ n ∈ Finset.range N, ∀ m ∈ Finset.range N,
      (∑ k ∈ Finset.range N, Z n m ^ k) = if n = m then (N : ℂ) else 0) :
    (∑ k ∈ Finset.range N,
        Complex.normSq (∑ n ∈ Finset.range N, ((a n : ℝ) : ℂ) * E k n)) =
      (N : ℝ) * ∑ n ∈ Finset.range N, a n ^ 2 := by
  have hC : (∑ k ∈ Finset.range N,
      ((Complex.normSq (∑ n ∈ Finset.range N, ((a n : ℝ) : ℂ) * E k n) : ℝ) : ℂ)) =
      ((N : ℕ) : ℂ) * ∑ n ∈ Finset.range N, (((a n : ℝ) : ℂ)) ^ 2 := by
    calc (∑ k ∈ Finset.range N,
        ((Complex.normSq (∑ n ∈ Finset.range N, ((a n : ℝ) : ℂ) * E k n) : ℝ) : ℂ))
        = ∑ k ∈ Finset.range N,
            ((∑ n ∈ Finset.range N, ((a n : ℝ) : ℂ) * E k n) *
              (starRingEnd ℂ) (∑ m ∈ Finset.range N, ((a m : ℝ) : ℂ) * E k m)) := by
          refine Finset.sum_congr rfl fun k _ => ?_
          rw [Complex.mul_conj]
      _ = ∑ k ∈ Finset.range N, ∑ n ∈ Finset.range N, ∑ m ∈ Finset.range N,
            ((a n : ℝ) : ℂ) * ((a m : ℝ) : ℂ) * Z n m ^ k := by
          refine Finset.sum_congr rfl fun k _ => ?_
          rw [map_sum, Finset.sum_mul_sum]
          refine Finset.sum_congr rfl fun n _ => Finset.sum_congr rfl fun m _ => ?_
          rw [map_mul, Complex.conj_ofReal, ← hmul k n m]
          ring
      _ = ∑ n ∈ Finset.range N, ∑ m ∈ Finset.range N,
            ((a n : ℝ) : ℂ) * ((a m : ℝ) : ℂ) * ∑ k ∈ Finset.range N, Z n m ^ k := by
          rw [Finset.sum_comm]
          refine Finset.sum_congr rfl fun n _ => ?_
          rw [Finset.sum_comm]
          refine Finset.sum_congr rfl fun m _ => ?_
          rw [Finset.mul_sum]
      _ = ∑ n ∈ Finset.range N, ∑ m ∈ Finset.range N,
            ((a n : ℝ) : ℂ) * ((a m : ℝ) : ℂ) * (if n = m then (N : ℂ) else 0) := by
          refine Finset.sum_congr rfl fun n hn => Finset.sum_congr rfl fun m hm => ?_
          rw [horth n hn m hm]
      _ = ∑ n ∈ Finset.range N, ((a n : ℝ) : ℂ) * ((a n : ℝ) : ℂ) * (N : ℂ) := by
          refine Finset.sum_congr rfl fun n hn => ?_
          have hite : ∀ m : ℕ,
              ((a n : ℝ) : ℂ) * ((a m : ℝ) : ℂ) * (if n = m then (N : ℂ) else 0) =
                if n = m then ((a n : ℝ) : ℂ) * ((a m : ℝ) : ℂ) * (N : ℂ) else 0 := by
            intro m
            rw [mul_ite, mul_zero]
          rw [Finset.sum_congr rfl fun m _ => hite m,
            Finset.sum_ite_eq (Finset.range N) n
              (fun m => ((a n : ℝ) : ℂ) * ((a m : ℝ) : ℂ) * (N : ℂ)),
            if_pos hn]
      _ = ((N : ℕ) : ℂ) * ∑ n ∈ Finset.range N, ((a n : ℝ) : ℂ) ^ 2 := by
          rw [Finset.mul_sum]
          refine Finset.sum_congr rfl fun n _ => ?_
          ring
  exact_mod_cast hC

/-- The energy identity instantiated at the DFT twiddle exponentials. -/
lemma sum_normSq_exp (N : ℕ) (hN : 0 < N) (a : ℕ → ℝ) :
    (∑ k ∈ Finset.range N, Complex.normSq (∑ n ∈ Finset.range N,
        ((a n : ℝ) : ℂ) *
          Complex.exp (((-2 * Real.pi * (k : ℝ) * (n : ℝ) / (N : ℝ) : ℝ) : ℂ) * Complex.I))) =
      (N : ℝ) * ∑ n ∈ Finset.range N, a n ^ 2 :=
  sum_normSq_abstract N a
    (fun k n => Complex.exp (((-2 * Real.pi * (k : ℝ) * (n : ℝ) / (N : ℝ) : ℝ) : ℂ) * Complex.I))
    (fun n m => Complex.exp (((-2 * Real.pi * ((n : ℝ) - (m : ℝ)) / (N : ℝ) : ℝ) : ℂ) * Complex.I))
    (fun k n m => exp_pow_form N k n m)
    (fun n hn m hm => exp_orthogonality N hN n m (Finset.mem_range.mp hn) (Finset.mem_range.mp hm))

/-- The sum of a function mapped over List.range is the Finset.range sum. -/
lemma sum_map_range (n : ℕ) (f : ℕ → ℝ) :
    ((List.range n).map f).sum = ∑ k ∈ Finset.range n, f k := by
  induction n with
  | zero => simp
  | succ m ih =>
    rw [List.range_succ, List.map_append, List.sum_append, Finset.sum_range_succ, ih]
    simp

/-- The sum of a function mapped over a list, as an indexed sum of its
elements. -/
lemma sum_map_getD (l : List ℝ) (f : ℝ → ℝ) :
    (l.map f).sum = ∑ n ∈ Finset.range l.length, f (l.getD n 0) := by
  induction l with
  | nil => simp
  | cons a t ih =>
    rw [List.map_cons, List.sum_cons, List.length_cons, Finset.sum_range_succ', ih]
    simp [add_comm]

/-- The squared magnitude of a DFT bin is the squared norm of the
corresponding complex exponential sum. -/
lemma dft_normSq (signal : List ℝ) (k : ℕ) :
    Dft.getMagnitude (Dft.calculateDFT signal (k : ℤ)) ^ 2 =
      Complex.normSq (∑ n ∈ Finset.range signal.length,
        ((signal.getD n 0 : ℝ) : ℂ) *
          Complex.exp (((-2 * Real.pi * (k : ℝ) * (n : ℝ) /
              ((signal.length : ℕ) : ℝ) : ℝ) : ℂ) * Complex.I)) := by
  have hre : (∑ n ∈ Finset.range signal.length,
      ((signal.getD n 0 : ℝ) : ℂ) *
        Complex.exp (((-2 * Real.pi * (k : ℝ) * (n : ℝ) /
            ((signal.length : ℕ) : ℝ) : ℝ) : ℂ) * Complex.I)).re =
      ∑ n ∈ Finset.range signal.length,
        signal.getD n 0 *
          Real.cos (-2 * Real.pi * (k : ℝ) * (n : ℝ) / ((signal.length : ℕ) : ℝ)) := by
    rw [Complex.re_sum]
    refine Finset.sum_congr rfl fun n _ => ?_
    rw [Complex.mul_re, Complex.ofReal_re, Complex.ofReal_im, Complex.exp_ofReal_mul_I_re]
    simp
  have him : (∑ n ∈ Finset.range signal.length,
      ((signal.getD n 0 : ℝ) : ℂ) *
        Complex.exp (((-2 * Real.pi * (k : ℝ) * (n : ℝ) /
            ((signal.length : ℕ) : ℝ) : ℝ) : ℂ) * Complex.I)).im =
      ∑ n ∈ Finset.range signal.length,
        signal.getD n 0 *
          Real.sin (-2 * Real.pi * (k : ℝ) * (n : ℝ) / ((signal.length : ℕ) : ℝ)) := by
    rw [Complex.im_sum]
    refine Finset.sum_congr rfl fun n _ => ?_
    rw [Complex.mul_im, Complex.ofReal_re, Complex.ofReal_im, Complex.exp_ofReal_mul_I_im]
    simp
  rw [Complex.normSq_apply, hre, him]
  unfold Dft.getMagnitude Dft.calculateDFT Dft.getTwiddleFactor
  dsimp only
  rw [Real.sq_sqrt (add_nonneg (mul_self_nonneg _) (mul_self_nonneg _))]
  simp only [Int.cast_natCast]

/-- Claim C3: the DFT result sequence produced on a tick has length exactly
min (N, 1024): 1024 bins when the window length exceeds 1024, N bins
otherwise. -/
theorem claim3_bin_count_capped (s : Hook.ControllerState) (i : Hook.TickInput) :
    (Hook.updateDFT s i).dftResults.length = min i.sampleWindow 1024 := by
  have h : (Hook.updateDFT s i).dftResults =
      Hook.dftResultsOf (Hook.windowData i.timeArray i.sampleWindow)
        (min i.sampleWindow 1024) := rfl
  rw [h]
  unfold Hook.dftResultsOf
  rw [List.length_map, List.length_range]

/-- Claim C2: once isPlaying transitions from true to false, every later tick
serves the snapshot captured at the last playing tick, and neither the frozen
data nor the served data changes across any sequence of paused ticks, whatever
their time-domain windows hold. -/
theorem claim2_freeze_behavior (s : Hook.ControllerState) (inp : Hook.TickInput)
    (hplay : inp.isPlaying = true) (pre suf : List Hook.TickInput)
    (hpaused : ∀ x ∈ pre ++ suf, x.isPlaying = false) :
    (Hook.runTicks (Hook.updateDFT s inp) pre).frozenData =
      some (Hook.capturedSnapshot inp) ∧
    Hook.currentData (Hook.runTicks (Hook.updateDFT s inp) pre) false =
      ⟨some (Hook.capturedSnapshot inp).timeData,
       (Hook.capturedSnapshot inp).dftResults,
       (Hook.capturedSnapshot inp).twiddleFactors⟩ := by
  have h1 : (Hook.runTicks (Hook.updateDFT s inp) pre).frozenData =
      some (Hook.capturedSnapshot inp) := by
    rw [runTicks_frozen_stable pre _ fun x hx => hpaused x (List.mem_append_left suf hx),
      updateDFT_frozen_of_playing s inp hplay]
  exact ⟨h1, by simp [Hook.currentData, h1]⟩

/-- Witness for claim C2 at a concrete trace: one playing tick on window [1]
followed by one paused tick on a different window [5]. -/
theorem claim2_freeze_behavior_witness :
    (Hook.runTicks (Hook.updateDFT Hook.initialState ⟨[1], [], true, 1, 0⟩)
        [⟨[5], [], false, 1, 0⟩]).frozenData =
      some (Hook.capturedSnapshot ⟨[1], [], true, 1, 0⟩) :=
  (claim2_freeze_behavior Hook.initialState ⟨[1], [], true, 1, 0⟩ rfl
    [⟨[5], [], false, 1, 0⟩] []
    (by
      intro x hx
      rw [List.append_nil, List.mem_singleton] at hx
      subst hx
      rfl)).1

/-- Counterexample to claim C5: a tick executed while paused (the effect body
runs updateDFT once whenever its dependencies change, gating only the next
animation frame on isPlaying) does capture and compute: from the initial
state, a paused tick on window [1] changes the live DFT results. -/
theorem claim5_counterexample :
    (⟨[1], [], false, 1, 0⟩ : Hook.TickInput).isPlaying = false ∧
    (Hook.updateDFT Hook.initialState ⟨[1], [], false, 1, 0⟩).dftResults ≠
      Hook.initialState.dftResults := by
  refine ⟨rfl, fun hEq => ?_⟩
  have hlen := congrArg List.length hEq
  have h1 : (Hook.updateDFT Hook.initialState ⟨[1], [], false, 1, 0⟩).dftResults.length
      = 1 := by
    have h : (Hook.updateDFT Hook.initialState ⟨[1], [], false, 1, 0⟩).dftResults =
        Hook.dftResultsOf (Hook.windowData [1] 1) 1 := rfl
    rw [h]
    unfold Hook.dftResultsOf
    rw [List.length_map, List.length_range]
  rw [h1] at hlen
  exact absurd hlen (by simp [Hook.initialState])

/-- Claim C5 amended: while paused the controller schedules no further
animation frame and never overwrites the frozen snapshot, and whenever a
frozen snapshot exists it is what consumers are served; but a tick that does
execute while paused still captures the window and recomputes the live DFT
results. -/
theorem claim5_paused_tick_amended (s : Hook.ControllerState) (i : Hook.TickInput)
    (h : i.isPlaying = false) :
    Hook.schedulesNext i = false ∧
    (Hook.updateDFT s i).frozenData = s.frozenData ∧
    (∀ f, s.frozenData = some f →
      Hook.currentData (Hook.updateDFT s i) i.isPlaying =
        ⟨some f.timeData, f.dftResults, f.twiddleFactors⟩) ∧
    (Hook.updateDFT s i).dftResults =
      Hook.dftResultsOf (Hook.windowData i.timeArray i.sampleWindow)
        (min i.sampleWindow 1024) := by
  refine ⟨h, by simp [Hook.updateDFT, h], fun f hf => ?_, rfl⟩
  have hfrozen : (Hook.updateDFT s i).frozenData = some f := by
    simp [Hook.updateDFT, h, hf]
  simp [Hook.currentData, h, hfrozen]

/-- Witness for amended claim C5: a paused tick from a state frozen during
play leaves the frozen snapshot untouched. -/
theorem claim5_paused_tick_amended_witness :
    (Hook.updateDFT (Hook.updateDFT Hook.initialState ⟨[1], [], true, 1, 0⟩)
        ⟨[5], [], false, 1, 0⟩).frozenData =
      (Hook.updateDFT Hook.initialState ⟨[1], [], true, 1, 0⟩).frozenData :=
  (claim5_paused_tick_amended
    (Hook.updateDFT Hook.initialState ⟨[1], [], true, 1, 0⟩)
    ⟨[5], [], false, 1, 0⟩ rfl).2.1

/-- Counterexample to claim C4: the engine has no InvalidWindow failure; on
the empty window (N = 0) the code returns the ordinary value (0, 0) where the
spec demands the InvalidWindow error. -/
theorem claim4_counterexample :
    Dft.calculateDFT ([] : List ℝ) 0 = ⟨0, 0⟩ ∧
    specDftBinChecked ([] : List ℝ) 0 = Except.error EngineError.invalidWindow ∧
    Except.ok (Dft.calculateDFT ([] : List ℝ) 0) ≠ specDftBinChecked ([] : List ℝ) 0 := by
  refine ⟨?_, ?_, ?_⟩ <;> simp [Dft.calculateDFT, specDftBinChecked]

/-- Claim C4 amended: the engine is total, with no failure mode at all: an
empty window yields the empty sum (0, 0), and the controller never skips a
tick computation — every tick computes min (N, 1024) bins from the captured
window. -/
theorem claim4_no_failure_amended (samples : List ℝ) (k : ℤ)
    (h : samples.length = 0) :
    Dft.calculateDFT samples k = ⟨0, 0⟩ ∧
    (∀ (s : Hook.ControllerState) (i : Hook.TickInput),
      (Hook.updateDFT s i).dftResults =
        Hook.dftResultsOf (Hook.windowData i.timeArray i.sampleWindow)
          (min i.sampleWindow 1024)) := by
  refine ⟨?_, fun s i => rfl⟩
  simp [Dft.calculateDFT, h]

/-- Witness for amended claim C4 at the empty window and bin 0. -/
theorem claim4_no_failure_amended_witness :
    Dft.calculateDFT ([] : List ℝ) 0 = ⟨0, 0⟩ :=
  (claim4_no_failure_amended [] 0 rfl).1

/-- Counterexample to claim C1: with N_effective = 0 supplied, the claimed
direct summation is empty, but the code treats 0 as absent (JavaScript
falsiness of maxN || signal.length) and sums the whole window: on [1] at bin
0 it returns (1, 0), not (0, 0). -/
theorem claim1_counterexample :
    Part000.calculateDFT [(1 : ℝ)] 0 (some 0) = ⟨1, 0⟩ ∧
    specDftBin [(1 : ℝ)] 0 (some 0) = ⟨0, 0⟩ ∧
    Part000.calculateDFT [(1 : ℝ)] 0 (some 0) ≠ specDftBin [(1 : ℝ)] 0 (some 0) := by
  have h1 : Part000.calculateDFT [(1 : ℝ)] 0 (some 0) = ⟨1, 0⟩ := by
    simp [Part000.calculateDFT, falsyOr]
  have h2 : specDftBin [(1 : ℝ)] 0 (some 0) = ⟨0, 0⟩ := by
    simp [specDftBin]
  refine ⟨h1, h2, ?_⟩
  rw [h1, h2]
  intro h
  exact one_ne_zero (congrArg Complex.real h)

/-- Claim C1 amended: the per-bin operation of part_000 computes exactly the
claimed direct summation built from twiddle angles -2 pi k n / N, except that
a supplied N_effective of 0 is treated as absent (maxN || signal.length is
falsy on 0), falling back to the window length. -/
theorem claim1_dft_bin_amended (samples : List ℝ) (k : ℤ) (nEff : Option ℤ) :
    Part000.calculateDFT samples k nEff =
      specDftBin samples k (if nEff = some 0 then none else nEff) := by
  have hsum : ∀ N : ℤ, ∀ c : ℕ,
      ((∑ n ∈ Finset.range c,
          samples.getD n 0 * Real.cos (-2 * Real.pi * (k : ℝ) / (N : ℝ) * (n : ℝ))) =
        ∑ n ∈ Finset.range c,
          samples.getD n 0 * Real.cos (-2 * Real.pi * (k : ℝ) * (n : ℝ) / (N : ℝ))) ∧
      ((∑ n ∈ Finset.range c,
          samples.getD n 0 * Real.sin (-2 * Real.pi * (k : ℝ) / (N : ℝ) * (n : ℝ))) =
        ∑ n ∈ Finset.range c,
          samples.getD n 0 * Real.sin (-2 * Real.pi * (k : ℝ) * (n : ℝ) / (N : ℝ))) := by
    intro N c
    constructor <;>
      exact Finset.sum_congr rfl fun n _ => by rw [baseAngle_mul]
  rcases nEff with _ | m
  · simp only [Part000.calculateDFT, specDftBin, falsyOr, Option.getD_none, reduceCtorEq,
      if_false]
    exact congrArg₂ Complex.mk ((hsum _ _).1) ((hsum _ _).2)
  · by_cases hm : m = 0
    · subst hm
      simp only [Part000.calculateDFT, specDftBin, falsyOr, if_pos rfl, Option.getD_none,
        if_pos (rfl : (some (0 : ℤ)) = some 0)]
      exact congrArg₂ Complex.mk ((hsum _ _).1) ((hsum _ _).2)
    · have hne : (some m ≠ some (0 : ℤ)) := by
        intro h; exact hm (Option.some.injEq .. ▸ h)
      simp only [Part000.calculateDFT, specDftBin, falsyOr, if_neg hm, if_neg hne,
        Option.getD_some]
      exact congrArg₂ Complex.mk ((hsum _ _).1) ((hsum _ _).2)

/-- Counterexample to claim C6: on the window [-1] with N = 1 and bin 0, the
single twiddle-series entry stores inputAmplitude Math.abs(-1) = 1 but weights
the twiddle by the signed sample -1, so weightedResult is not inputAmplitude
times the twiddle. -/
theorem claim6_counterexample :
    ((Hook.updateDFT Hook.initialState ⟨[-1], [], true, 1, 0⟩).twiddleFactors.getD 0
        ⟨0, 0, 0, ⟨0, 0⟩⟩).result.real ≠
      ((Hook.updateDFT Hook.initialState ⟨[-1], [], true, 1, 0⟩).twiddleFactors.getD 0
          ⟨0, 0, 0, ⟨0, 0⟩⟩).amplitude *
        ((Hook.updateDFT Hook.initialState ⟨[-1], [], true, 1, 0⟩).twiddleFactors.getD 0
            ⟨0, 0, 0, ⟨0, 0⟩⟩).real := by
  have h : (Hook.updateDFT Hook.initialState ⟨[-1], [], true, 1, 0⟩).twiddleFactors =
      Hook.twiddleFactorsOf (Hook.windowData [-1] 1) 1 0 1 := rfl
  rw [h]
  unfold Hook.twiddleFactorsOf
  rw [getD_map_range _ _ _ _ (by norm_num)]
  simp [Hook.windowData, Dft.getTwiddleFactor]
  norm_num

/-- Claim C6 amended: on every tick the twiddle series has one entry per n in
[0, min (N, 1024)); entry n stores the twiddle getTwiddleFactor (N, k, n), the
absolute value of the n-th window sample as inputAmplitude, and the signed
sample times the twiddle as weightedResult — so weightedResult equals
inputAmplitude times the twiddle only for nonnegative samples. -/
theorem claim6_twiddle_series_amended (s : Hook.ControllerState) (i : Hook.TickInput)
    (n : ℕ) (hn : n < min i.sampleWindow 1024) :
    (Hook.updateDFT s i).twiddleFactors.length = min i.sampleWindow 1024 ∧
    (Hook.updateDFT s i).twiddleFactors.getD n ⟨0, 0, 0, ⟨0, 0⟩⟩ =
      ⟨(Dft.getTwiddleFactor (i.sampleWindow : ℝ) (i.selectedFrequencyBin : ℝ) (n : ℝ)).real,
       (Dft.getTwiddleFactor (i.sampleWindow : ℝ) (i.selectedFrequencyBin : ℝ) (n : ℝ)).imag,
       |(Hook.windowData i.timeArray i.sampleWindow).getD n 0|,
       ⟨(Hook.windowData i.timeArray i.sampleWindow).getD n 0 *
          (Dft.getTwiddleFactor (i.sampleWindow : ℝ) (i.selectedFrequencyBin : ℝ) (n : ℝ)).real,
        (Hook.windowData i.timeArray i.sampleWindow).getD n 0 *
          (Dft.getTwiddleFactor (i.sampleWindow : ℝ) (i.selectedFrequencyBin : ℝ) (n : ℝ)).imag⟩⟩ := by
  have h : (Hook.updateDFT s i).twiddleFactors =
      Hook.twiddleFactorsOf (Hook.windowData i.timeArray i.sampleWindow) i.sampleWindow
        i.selectedFrequencyBin (min i.sampleWindow 1024) := rfl
  constructor
  · rw [h]
    unfold Hook.twiddleFactorsOf
    rw [List.length_map, List.length_range]
  · rw [h]
    unfold Hook.twiddleFactorsOf
    rw [getD_map_range _ _ _ _ hn]

/-- Witness for amended claim C6 at the concrete tick on window [2], N = 1,
bin 0, entry 0. -/
theorem claim6_twiddle_series_amended_witness :
    (Hook.updateDFT Hook.initialState ⟨[2], [], true, 1, 0⟩).twiddleFactors.getD 0
        ⟨0, 0, 0, ⟨0, 0⟩⟩ =
      ⟨(Dft.getTwiddleFactor ((1 : ℕ) : ℝ) ((0 : ℤ) : ℝ) ((0 : ℕ) : ℝ)).real,
       (Dft.getTwiddleFactor ((1 : ℕ) : ℝ) ((0 : ℤ) : ℝ) ((0 : ℕ) : ℝ)).imag,
       |(Hook.windowData [2] 1).getD 0 0|,
       ⟨(Hook.windowData [2] 1).getD 0 0 *
          (Dft.getTwiddleFactor ((1 : ℕ) : ℝ) ((0 : ℤ) : ℝ) ((0 : ℕ) : ℝ)).real,
        (Hook.windowData [2] 1).getD 0 0 *
          (Dft.getTwiddleFactor ((1 : ℕ) : ℝ) ((0 : ℤ) : ℝ) ((0 : ℕ) : ℝ)).imag⟩⟩ :=
  (claim6_twiddle_series_amended Hook.initialState ⟨[2], [], true, 1, 0⟩ 0
    (by norm_num)).2

/-- Claim C9: magnitude is always nonnegative, the derived phase in degrees
lies in (-180, 180], and the phase of (0, 0) is 0. -/
theorem claim9_magnitude_phase_range (c : Complex) :
    0 ≤ Dft.getMagnitude c ∧
    -180 < Dft.getPhase c ∧
    Dft.getPhase c ≤ 180 ∧
    Dft.getPhase ⟨0, 0⟩ = 0 := by
  have hpos : (0 : ℝ) < 180 / Real.pi := by positivity
  refine ⟨Real.sqrt_nonneg _, ?_, ?_, ?_⟩
  · have h := mul_lt_mul_of_pos_right (Complex.neg_pi_lt_arg (⟨c.real, c.imag⟩ : ℂ)) hpos
    have heq : -Real.pi * (180 / Real.pi) = -180 := by
      rw [neg_mul, mul_comm, div_mul_cancel₀ _ Real.pi_ne_zero]
    simp only [Dft.getPhase, atan2]
    calc (-180 : ℝ) = -Real.pi * (180 / Real.pi) := heq.symm
      _ < _ := h
  · have h := mul_le_mul_of_nonneg_right (Complex.arg_le_pi (⟨c.real, c.imag⟩ : ℂ))
      (le_of_lt hpos)
    have heq : Real.pi * (180 / Real.pi) = 180 := by
      rw [mul_comm, div_mul_cancel₀ _ Real.pi_ne_zero]
    simp only [Dft.getPhase, atan2]
    calc Complex.arg (⟨c.real, c.imag⟩ : ℂ) * (180 / Real.pi)
        ≤ Real.pi * (180 / Real.pi) := h
      _ = 180 := heq
  · have h0 : (⟨(0 : ℝ), (0 : ℝ)⟩ : ℂ) = 0 := by
      apply Complex.ext <;> simp
    simp [Dft.getPhase, atan2, h0, Complex.arg_zero]

/-- Counterexample to claim C10: with a third argument of 4 on the length-2
signal [0, 1] at bin 1 — an argument at least the signal length, where the
claim asserts agreement — the dft.ts version returns (-1, 0) while the
part_000 version, whose angle denominator becomes 4, returns (0, -1). -/
theorem claim10_counterexample :
    ((([(0 : ℝ), 1]).length : ℤ) ≤ 4) ∧
    Dft.calculateDFT [(0 : ℝ), 1] 1 = ⟨-1, 0⟩ ∧
    Part000.calculateDFT [(0 : ℝ), 1] 1 (some 4) = ⟨0, -1⟩ ∧
    Dft.calculateDFT [(0 : ℝ), 1] 1 ≠ Part000.calculateDFT [(0 : ℝ), 1] 1 (some 4) := by
  have h1 : Dft.calculateDFT [(0 : ℝ), 1] 1 = ⟨-1, 0⟩ := by
    unfold Dft.calculateDFT Dft.getTwiddleFactor
    rw [show ([(0 : ℝ), 1]).length = 2 from rfl]
    rw [Finset.sum_range_succ, Finset.sum_range_succ, Finset.sum_range_zero,
      Finset.sum_range_succ, Finset.sum_range_succ, Finset.sum_range_zero]
    norm_num
    rw [show (-(2 * Real.pi) / 2 : ℝ) = -Real.pi by ring]
    rw [Real.cos_neg, Real.sin_neg, Real.cos_pi, Real.sin_pi]
    norm_num
  have h2 : Part000.calculateDFT [(0 : ℝ), 1] 1 (some 4) = ⟨0, -1⟩ := by
    unfold Part000.calculateDFT falsyOr
    norm_num [Finset.sum_range_succ]
    rw [show (-(2 * Real.pi) / 4 : ℝ) = -(Real.pi / 2) by ring]
    rw [Real.cos_neg, Real.sin_neg, Real.cos_pi_div_two, Real.sin_pi_div_two]
    norm_num
  refine ⟨by norm_num, h1, h2, ?_⟩
  rw [h1, h2]
  intro hEq
  have := congrArg Complex.real hEq
  norm_num at this

/-- Claim C10 amended: the two per-bin DFT implementations agree (over exact
real arithmetic) when the third argument is absent, zero (JavaScript falsy),
or exactly the signal length; the dft.ts two-parameter version ignores any
third argument the callers pass, while the part_000 result does depend on a
third argument below the signal length. -/
theorem claim10_equivalence_amended (signal : List ℝ) (k : ℤ) :
    Part000.calculateDFT signal k none = Dft.calculateDFT signal k ∧
    Part000.calculateDFT signal k (some 0) = Dft.calculateDFT signal k ∧
    Part000.calculateDFT signal k (some (signal.length : ℤ)) = Dft.calculateDFT signal k ∧
    (∀ m m' : Option ℤ,
      Dft.calculateDFTCall signal k m = Dft.calculateDFTCall signal k m') ∧
    Part000.calculateDFT [(0 : ℝ), 1, 0] 1 (some 1) ≠
      Part000.calculateDFT [(0 : ℝ), 1, 0] 1 (some 2) := by
  refine ⟨part000_at_window_length _ _ _ rfl,
    part000_at_window_length _ _ _ (by simp [falsyOr]),
    part000_at_window_length _ _ _ (by simp [falsyOr]),
    fun m m' => rfl, ?_⟩
  have ha : Part000.calculateDFT [(0 : ℝ), 1, 0] 1 (some 1) = ⟨0, 0⟩ := by
    unfold Part000.calculateDFT falsyOr
    norm_num
  have hb : Part000.calculateDFT [(0 : ℝ), 1, 0] 1 (some 2) = ⟨-1, 0⟩ := by
    unfold Part000.calculateDFT falsyOr
    norm_num
    rw [show ((2 : ℤ).toNat) = 2 from rfl]
    norm_num [Finset.sum_range_succ]
    rw [show (-(2 * Real.pi) / 2 : ℝ) = -Real.pi by ring]
    rw [Real.cos_neg, Real.sin_neg, Real.cos_pi, Real.sin_pi]
    norm_num
  rw [ha, hb]
  intro hEq
  have := congrArg Complex.real hEq
  norm_num at this

/-- Claim C7: for every real window and every bin k with 0 < k < N, the
per-bin DFT at k is the complex conjugate of the per-bin DFT at N - k: equal
real parts and negated imaginary parts, exactly over real arithmetic. -/
theorem claim7_conjugate_symmetry (signal : List ℝ) (k : ℤ)
    (hk0 : 0 < k) (hkN : k < (signal.length : ℤ)) :
    (Dft.calculateDFT signal k).real =
      (Dft.calculateDFT signal ((signal.length : ℤ) - k)).real ∧
    (Dft.calculateDFT signal k).imag =
      -(Dft.calculateDFT signal ((signal.length : ℤ) - k)).imag := by
  have hNz : (0 : ℤ) < (signal.length : ℤ) := lt_trans hk0 hkN
  have hNe : ((signal.length : ℕ) : ℝ) ≠ 0 := by
    have : (0 : ℝ) < ((signal.length : ℕ) : ℝ) := by exact_mod_cast hNz
    exact ne_of_gt this
  have key : ∀ n : ℕ,
      -2 * Real.pi * (((signal.length : ℤ) - k : ℤ) : ℝ) * (n : ℝ) /
          ((signal.length : ℕ) : ℝ) =
        2 * Real.pi * (k : ℝ) * (n : ℝ) / ((signal.length : ℕ) : ℝ) +
          ((-(n : ℤ) : ℤ) : ℝ) * (2 * Real.pi) := by
    intro n
    push_cast
    field_simp
    ring
  have hneg : ∀ n : ℕ,
      -2 * Real.pi * (k : ℝ) * (n : ℝ) / ((signal.length : ℕ) : ℝ) =
        -(2 * Real.pi * (k : ℝ) * (n : ℝ) / ((signal.length : ℕ) : ℝ)) := by
    intro n
    ring
  unfold Dft.calculateDFT Dft.getTwiddleFactor
  dsimp only
  constructor
  · refine Finset.sum_congr rfl fun n _ => ?_
    congr 1
    rw [hneg n, Real.cos_neg, key n, Real.cos_add_int_mul_two_pi]
  · rw [← Finset.sum_neg_distrib]
    refine Finset.sum_congr rfl fun n _ => ?_
    rw [hneg n, Real.sin_neg, key n, Real.sin_add_int_mul_two_pi, mul_neg]

/-- Witness for claim C7 on the window [1, 2] at k = 1. -/
theorem claim7_conjugate_symmetry_witness :
    (Dft.calculateDFT [(1 : ℝ), 2] 1).real =
      (Dft.calculateDFT [(1 : ℝ), 2] ((([(1 : ℝ), 2]).length : ℤ) - 1)).real :=
  (claim7_conjugate_symmetry [(1 : ℝ), 2] 1 (by norm_num) (by norm_num)).1

/-- Claim C8: Parseval energy conservation — the sum over all N bins of the
squared magnitude of the full-spectrum DFT, divided by N, equals the sum of
the squared input samples, exactly over real arithmetic. -/
theorem claim8_parseval (signal : List ℝ) :
    (((Dft.calculateFullDFT signal).map fun c => Dft.getMagnitude c ^ 2).sum) /
        ((signal.length : ℕ) : ℝ) =
      ((signal.map fun x => x ^ 2).sum) := by
  rcases Nat.eq_zero_or_pos signal.length with h0 | hpos
  · have hnil : signal = [] := List.length_eq_zero.mp h0
    subst hnil
    simp [Dft.calculateFullDFT]
  · have hmap : ((Dft.calculateFullDFT signal).map fun c => Dft.getMagnitude c ^ 2) =
        (List.range signal.length).map
          fun (k : ℕ) => Dft.getMagnitude (Dft.calculateDFT signal (k : ℤ)) ^ 2 := by
      unfold Dft.calculateFullDFT
      rw [List.map_map]
      rfl
    rw [hmap, sum_map_range _ _, sum_map_getD signal _,
      Finset.sum_congr rfl fun k _ => dft_normSq signal k,
      sum_normSq_exp signal.length hpos (fun n => signal.getD n 0),
      mul_div_cancel_left₀ _ (Nat.cast_ne_zero.mpr hpos.ne')]

end FourierView
